import Mathlib

/-!
Verification of the hex-terrain geometry model and camera-framing engine of
the system-tactics repository, against its natural-language specification.

The embedding follows the source files `src/shared/src/level.rs`,
`src/shared/src/rendering/camera.rs` and `src/shared/src/input.rs`.
Conventions of the embedding:

* `f32` values are modelled as real numbers; where a computation can produce
  a non-finite float (NaN or an infinity, from a division by zero) the model
  returns `Option ℝ` with `none` standing for the non-finite result.
* `i32` values are modelled as integers, with Rust's truncating division and
  remainder (`Int.tdiv` / `Int.tmod`) where the source divides.
* The sentinel initial bounds `f32::MAX` / `f32::MIN` are modelled by the
  exact value of `f32::MAX`, `(2 ^ 24 - 1) * 2 ^ 104`, and its negation.
* Bevy's `Vec2` / `Vec3` become record types of reals, `Quat` becomes
  Mathlib's `Quaternion ℝ` (bevy's `Quat::from_rotation_y` builds a unit
  quaternion, for which bevy's optimised `quat * vec3` product equals the
  conjugation `q v q*` modelled here).
* A Bevy system reading and writing ECS resources becomes a function from
  the resources it reads to the resources it writes.
-/

namespace SystemTactics

/-- A 2D float vector (bevy `Vec2`). -/
structure Vec2 where
  x : ℝ
  y : ℝ

/-- A 3D float vector (bevy `Vec3`). -/
structure Vec3 where
  x : ℝ
  y : ℝ
  z : ℝ

/-- Componentwise vector addition. -/
noncomputable def Vec3.add (a b : Vec3) : Vec3 := ⟨a.x + b.x, a.y + b.y, a.z + b.z⟩

/-- Componentwise vector subtraction. -/
noncomputable def Vec3.sub (a b : Vec3) : Vec3 := ⟨a.x - b.x, a.y - b.y, a.z - b.z⟩

/-- Multiplication of a vector by a scalar (bevy `vec * t`). -/
noncomputable def Vec3.scale (a : Vec3) (t : ℝ) : Vec3 := ⟨a.x * t, a.y * t, a.z * t⟩

/-- Componentwise division by a scalar (bevy `vec / t`). -/
noncomputable def Vec3.divScalar (a : Vec3) (t : ℝ) : Vec3 := ⟨a.x / t, a.y / t, a.z / t⟩

/-- Componentwise minimum (bevy `Vec3::min`). -/
noncomputable def Vec3.vmin (a b : Vec3) : Vec3 := ⟨min a.x b.x, min a.y b.y, min a.z b.z⟩

/-- Componentwise maximum (bevy `Vec3::max`). -/
noncomputable def Vec3.vmax (a b : Vec3) : Vec3 := ⟨max a.x b.x, max a.y b.y, max a.z b.z⟩

/-- Squared Euclidean norm of a `Vec3`. -/
noncomputable def Vec3.normSq (a : Vec3) : ℝ := a.x * a.x + a.y * a.y + a.z * a.z

/-- Euclidean norm of a `Vec3` (bevy `Vec3::length`). -/
noncomputable def Vec3.norm (a : Vec3) : ℝ := Real.sqrt a.normSq

/-- An axial hex coordinate (`hexx::Hex { x, y }`; the source uses `x` as the
column `q` and `y` as the row `r`). -/
structure Hex where
  x : ℤ
  y : ℤ

/-- A tactical level (`Level` in `level.rs`): name, grid dimensions and the
per-cell height data.  The `heights` array stored as `Array2<f32>` indexed
`[(row, col)]` is modelled as a total function of the two indices; the shape
of the array is `(height, width)` for every well-formed level (`Level::new`
allocates exactly that shape and the persisted format declares it). -/
structure Level where
  name : String
  width : ℤ
  height : ℤ
  heights : ℤ → ℤ → ℝ

/-- The f32 value stored by `Level::new` for cell `(q, r)` of a grid of the
given dimensions: `q_norm = q / (width-1)`, `r_norm = r / (height-1)`,
`height_factor = (q_norm + r_norm) / 2`, stored value
`1 + height_factor * 3`.  When `width = 1` or `height = 1` the cast
`(width - 1) as f32` is `0.0` and the f32 division yields NaN (or an
infinity), which propagates through the sum; `none` models that non-finite
stored value. -/
noncomputable def new_gradient_height (width height q r : ℤ) : Option ℝ :=
  if width - 1 = 0 ∨ height - 1 = 0 then none
  else
    some (1 + (((q : ℝ) / ((width : ℝ) - 1) + (r : ℝ) / ((height : ℝ) - 1)) / 2) * 3)

/-- `Level::get_height`: the stored value for in-bounds coordinates, the
sentinel `0.0` for out-of-bounds coordinates. -/
noncomputable def Level.get_height (l : Level) (hex : Hex) : ℝ :=
  if 0 ≤ hex.x ∧ hex.x < l.width ∧ 0 ≤ hex.y ∧ hex.y < l.height then
    l.heights hex.y hex.x
  else 0

/-- Indexing an `ndarray::Array2` of the given shape: `none` models the
panic on an index outside the array's shape. -/
noncomputable def array2_get (rows cols : ℤ) (data : ℤ → ℤ → ℝ) (r c : ℤ) : Option ℝ :=
  if 0 ≤ r ∧ r < rows ∧ 0 ≤ c ∧ c < cols then some (data r c) else none

/-- `Level::get_height` with the `heights[(hex.y, hex.x)]` array access made
explicit, for a level whose array has the well-formed shape
`(height, width)`: the in-bounds guard of the source must keep the access
inside the array shape for the function to be panic-free. -/
noncomputable def Level.get_height_checked (l : Level) (hex : Hex) : Option ℝ :=
  if 0 ≤ hex.x ∧ hex.x < l.width ∧ 0 ≤ hex.y ∧ hex.y < l.height then
    array2_get l.height l.width l.heights hex.y hex.x
  else some 0

/-- `Level::get_hex_grid`: all coordinates `(q, r)` with `0 ≤ q < width`
(outer loop) and `0 ≤ r < height` (inner loop), in loop order. -/
def Level.get_hex_grid (l : Level) : List Hex :=
  (List.range l.width.toNat).flatMap fun (q : ℕ) =>
    (List.range l.height.toNat).map fun (r : ℕ) => Hex.mk (q : ℤ) (r : ℤ)

/-- `HexLayout::pointy().with_scale(Vec2::splat(1.0)).hex_to_world_pos`: the
pointy-top hex projection with unit scale,
`(√3·q + (√3/2)·r, (3/2)·r)`. -/
noncomputable def hex_to_world_pos (hex : Hex) : Vec2 :=
  ⟨Real.sqrt 3 * (hex.x : ℝ) + Real.sqrt 3 / 2 * (hex.y : ℝ), 3 / 2 * (hex.y : ℝ)⟩

/-- The 3D world position of a cell as built inside `get_world_bounds`,
`get_center_world_pos` and `raycast_hex_surfaces`: planar axes from the
hex-to-world projection (world `x` and `z`), vertical axis (`y`) from the
cell's height. -/
noncomputable def Level.world_pos_3d (l : Level) (hex : Hex) : Vec3 :=
  ⟨(hex_to_world_pos hex).x, l.get_height hex, (hex_to_world_pos hex).y⟩

/-- The exact value of `f32::MAX`, `(2 - 2⁻²³) · 2¹²⁷`. -/
def f32MAX : ℝ := (2 ^ 24 - 1) * 2 ^ 104

/-- `Level::get_world_bounds`: fold componentwise min/max of every cell's 3D
world position, starting from the sentinels `Vec3::splat(f32::MAX)` and
`Vec3::splat(f32::MIN)` (`f32::MIN = -f32::MAX`). -/
noncomputable def Level.get_world_bounds (l : Level) : Vec3 × Vec3 :=
  l.get_hex_grid.foldl
    (fun acc hex => (acc.1.vmin (l.world_pos_3d hex), acc.2.vmax (l.world_pos_3d hex)))
    (⟨f32MAX, f32MAX, f32MAX⟩, ⟨-f32MAX, -f32MAX, -f32MAX⟩)

/-- `Level::get_level_diagonal_extent`: the 3D Euclidean diagonal of the
world bounds. -/
noncomputable def Level.get_level_diagonal_extent (l : Level) : ℝ :=
  Real.sqrt
    ((l.get_world_bounds.2.x - l.get_world_bounds.1.x) *
        (l.get_world_bounds.2.x - l.get_world_bounds.1.x) +
      (l.get_world_bounds.2.z - l.get_world_bounds.1.z) *
        (l.get_world_bounds.2.z - l.get_world_bounds.1.z) +
      (l.get_world_bounds.2.y - l.get_world_bounds.1.y) *
        (l.get_world_bounds.2.y - l.get_world_bounds.1.y))

/-- `Level::get_center_hexes`: the center cell(s), resolved on
`(width % 2, height % 2)` with Rust's truncating remainder; the final
else-branch models the `_` fallback arm. -/
def Level.get_center_hexes (l : Level) : List Hex :=
  if l.width.tmod 2 = 1 ∧ l.height.tmod 2 = 1 then
    [⟨l.width.tdiv 2, l.height.tdiv 2⟩]
  else if l.width.tmod 2 = 0 ∧ l.height.tmod 2 = 0 then
    [⟨l.width.tdiv 2 - 1, l.height.tdiv 2 - 1⟩, ⟨l.width.tdiv 2, l.height.tdiv 2 - 1⟩,
      ⟨l.width.tdiv 2 - 1, l.height.tdiv 2⟩, ⟨l.width.tdiv 2, l.height.tdiv 2⟩]
  else if l.width.tmod 2 = 0 ∧ l.height.tmod 2 = 1 then
    [⟨l.width.tdiv 2 - 1, l.height.tdiv 2⟩, ⟨l.width.tdiv 2, l.height.tdiv 2⟩]
  else if l.width.tmod 2 = 1 ∧ l.height.tmod 2 = 0 then
    [⟨l.width.tdiv 2, l.height.tdiv 2 - 1⟩, ⟨l.width.tdiv 2, l.height.tdiv 2⟩]
  else
    [⟨l.width.tdiv 2, l.height.tdiv 2⟩]

/-- `Level::get_center_world_pos`: sum of the 3D world positions of the
center cells, divided componentwise by their number. -/
noncomputable def Level.get_center_world_pos (l : Level) : Vec3 :=
  (l.get_center_hexes.foldl (fun acc hex => acc.add (l.world_pos_3d hex))
      (⟨0, 0, 0⟩ : Vec3)).divScalar
    (l.get_center_hexes.length : ℝ)

/-- `is_inside_regular_hexagon` from `camera.rs`: the symmetry test with the
two early-return rejections and the final edge inequality. -/
def is_inside_regular_hexagon (point center : Vec2) (radius : ℝ) : Prop :=
  ¬(|point.x - center.x| > radius * 0.866) ∧
    ¬(|point.y - center.y| > radius) ∧
    radius * 1.5 - 0.866 * |point.x - center.x| - 0.5 * |point.y - center.y| ≥ 0

noncomputable instance (point center : Vec2) (radius : ℝ) :
    Decidable (is_inside_regular_hexagon point center radius) := by
  unfold is_inside_regular_hexagon
  infer_instance

/-- `raycast_hex_surfaces`: skip when the ray is near-horizontal
(`|direction.y| < 0.001`); otherwise return, for the first cell in grid
order whose top plane is crossed at `t ≥ 0` inside the cell's hexagon
footprint, the point `(intersection.x, height, intersection.z)`.
The camera position and ray direction are the two values the source reads
from the camera. -/
noncomputable def raycast_hex_surfaces (camera_pos direction : Vec3) (level : Level) :
    Option Vec3 :=
  if |direction.y| < 0.001 then none
  else
    level.get_hex_grid.findSome? fun hex =>
      let height := level.get_height hex
      let t := (height - camera_pos.y) / direction.y
      if t < 0 then none
      else
        let intersection := camera_pos.add (direction.scale t)
        if is_inside_regular_hexagon ⟨intersection.x, intersection.z⟩
            ⟨(hex_to_world_pos hex).x, (hex_to_world_pos hex).y⟩ 1 then
          some ⟨intersection.x, height, intersection.z⟩
        else none

/-- `calculate_camera_focus_point` (camera.rs): hex raycast first, then the
ground-plane (`y = 0`) intersection, then the point 10 units ahead when the
ray is near-horizontal.  The arguments are `transform.translation` and
`transform.forward()` as read by the source. -/
noncomputable def calculate_camera_focus_point (camera_pos forward_dir : Vec3)
    (level : Level) : Vec3 :=
  match raycast_hex_surfaces camera_pos forward_dir level with
  | some hex_intersection => hex_intersection
  | none =>
    if |forward_dir.y| < 0.001 then camera_pos.add (forward_dir.scale 10)
    else
      let t := -camera_pos.y / forward_dir.y
      let intersection := camera_pos.add (forward_dir.scale t)
      ⟨intersection.x, 0, intersection.z⟩

/-- A window's pixel dimensions (the two values the source reads from
`bevy::Window`). -/
structure Window where
  width : ℝ
  height : ℝ

/-- `get_viewport_size_for_orientation`: the window height in the two
portrait yaw bands, the window width otherwise.  `yaw_degrees` is the yaw
the source extracts from the camera rotation (YXZ Euler order), in
degrees. -/
noncomputable def get_viewport_size_for_orientation (yaw_degrees : ℝ) (window : Window) :
    ℝ :=
  let normalized_yaw := if yaw_degrees < 0 then yaw_degrees + 360 else yaw_degrees
  if (35 ≤ normalized_yaw ∧ normalized_yaw ≤ 55) ∨
      (215 ≤ normalized_yaw ∧ normalized_yaw ≤ 235) then
    window.height
  else window.width

/-- `calculate_optimal_scale`: `(level_diagonal + padding) / viewport_size`
with `padding = 3`. -/
noncomputable def calculate_optimal_scale (level_diagonal viewport_size : ℝ) : ℝ :=
  let padding : ℝ := 3
  let padded_diagonal := level_diagonal + padding
  padded_diagonal / viewport_size

/-- `calculate_optimal_camera_position`: inverse raycast placing the camera
20 units above the center along the current forward direction. -/
noncomputable def calculate_optimal_camera_position (center_pos : Vec3)
    (camera_forward : Vec3) : Vec3 :=
  let camera_height := center_pos.y + 20
  let height_diff := camera_height - center_pos.y
  let t := height_diff / (-camera_forward.y)
  ⟨center_pos.x - t * camera_forward.x, camera_height, center_pos.z - t * camera_forward.z⟩

/-- The `CameraLimits` resource. -/
structure CameraLimits where
  min_zoom_scale : ℝ
  max_zoom_scale : ℝ
  level_diagonal : ℝ
  needs_recalculation : Bool
  optimal_camera_position : Vec3
  current_movement_radius : ℝ
  rotation_processed : Bool

/-- `CameraLimits::default`. -/
noncomputable def CameraLimits.default : CameraLimits :=
  ⟨0.005, 0.05, 10, true, ⟨4.5, 20, -4.5⟩, 5, false⟩

/-- Rust's `f32::clamp` on its non-panicking domain (`lo ≤ hi`): below the
range yields `lo`, above yields `hi`. -/
noncomputable def fclamp (x lo hi : ℝ) : ℝ := if x < lo then lo else if x > hi then hi else x

/-- `calculate_movement_radius`: linear interpolation between
`level_diagonal / 2` at `min_zoom_scale` and `0` at `max_zoom_scale`. -/
noncomputable def calculate_movement_radius (camera_limits : CameraLimits)
    (current_scale : ℝ) : ℝ :=
  let clamped_scale :=
    fclamp current_scale camera_limits.min_zoom_scale camera_limits.max_zoom_scale
  let zoom_factor := (camera_limits.max_zoom_scale - clamped_scale) /
    (camera_limits.max_zoom_scale - camera_limits.min_zoom_scale)
  zoom_factor * (camera_limits.level_diagonal / 2)

/-- One `MouseWheel` event processed by `camera_zoom_system` (input.rs): the
written scale is `(scale - event.y * 0.0001).clamp(0.005, 0.05)`. -/
noncomputable def camera_zoom_step (scale event_y : ℝ) : ℝ :=
  fclamp (scale - event_y * 0.0001) 0.005 0.05

/-- `camera_zoom_system` over a frame's queued wheel events, in order. -/
noncomputable def camera_zoom_system (scale : ℝ) (events : List ℝ) : ℝ :=
  events.foldl camera_zoom_step scale

/-- `on_level_change_system` (camera.rs): recompute the diagonal, the
optimal position, the max zoom scale and the movement radius, and write the
optimal position and scale to the camera.  Inputs are the new level, the
window, the camera yaw in degrees and forward vector, and the old limits;
the result is the updated limits, the written camera translation and the
written orthographic scale. -/
noncomputable def on_level_change_system (level : Level) (window : Window)
    (yaw_degrees : ℝ) (camera_forward : Vec3) (camera_limits : CameraLimits) :
    CameraLimits × Vec3 × ℝ :=
  let level_diagonal := level.get_level_diagonal_extent
  let center_pos := level.get_center_world_pos
  let optimal_position := calculate_optimal_camera_position center_pos camera_forward
  let viewport_size := get_viewport_size_for_orientation yaw_degrees window
  let optimal_scale := calculate_optimal_scale level_diagonal viewport_size
  let limits1 : CameraLimits :=
    { camera_limits with
      level_diagonal := level_diagonal
      optimal_camera_position := optimal_position
      max_zoom_scale := optimal_scale }
  let limits2 : CameraLimits :=
    { limits1 with
      current_movement_radius := calculate_movement_radius limits1 optimal_scale
      needs_recalculation := false }
  (limits2, optimal_position, optimal_scale)

/-- CLAIM C8: the height query is total: for every level (with the data
model's array shape `(height, width)`) and every integer coordinate pair the
checked lookup returns a value and never hits the array out of shape; the
value is the stored one in bounds and the sentinel `0` out of bounds
(negative coordinates included). -/
theorem get_height_total (l : Level) (hex : Hex) :
    l.get_height_checked hex = some (l.get_height hex) ∧
      (0 ≤ hex.x ∧ hex.x < l.width ∧ 0 ≤ hex.y ∧ hex.y < l.height →
        l.get_height hex = l.heights hex.y hex.x) ∧
      (¬(0 ≤ hex.x ∧ hex.x < l.width ∧ 0 ≤ hex.y ∧ hex.y < l.height) →
        l.get_height hex = 0) := by
  unfold Level.get_height_checked Level.get_height array2_get
  by_cases h : 0 ≤ hex.x ∧ hex.x < l.width ∧ 0 ≤ hex.y ∧ hex.y < l.height
  · obtain ⟨h1, h2, h3, h4⟩ := h
    simp [h1, h2, h3, h4]
  · simp [h]

/-- CLAIM C2, counterexample: a 1×1 grid stores a non-finite height at
`(0, 0)` (the f32 division `0.0 / 0.0` is NaN), so the stored height is not
the finite `1` the claim asserts. -/
theorem new_gradient_height_one_by_one :
    new_gradient_height 1 1 0 0 = none ∧
      ∀ x : ℝ, new_gradient_height 1 1 0 0 ≠ some x := by
  constructor
  · simp [new_gradient_height]
  · intro x
    simp [new_gradient_height]

/-- CLAIM C2 (amended): for dimensions at least 2 in each direction,
`Level::new` stores at cell `(q, r)` the finite value
`1 + 3 * (q_norm + r_norm) / 2` with `q_norm = q / (width - 1)` and
`r_norm = r / (height - 1)`; grids that are 1 wide or 1 tall instead divide
by zero and store non-finite values. -/
theorem new_gradient_height_formula (width height q r : ℤ)
    (hw : 2 ≤ width) (hh : 2 ≤ height) :
    new_gradient_height width height q r =
      some (1 + 3 * ((q : ℝ) / ((width : ℝ) - 1) + (r : ℝ) / ((height : ℝ) - 1)) / 2) := by
  have hw1 : width - 1 ≠ 0 := by omega
  have hh1 : height - 1 ≠ 0 := by omega
  unfold new_gradient_height
  rw [if_neg (by tauto)]
  congr 1
  ring

/-- Witness for C2's amended theorem at a concrete input: the 2×2 grid
stores `1` at cell `(0, 0)`. -/
theorem new_gradient_height_formula_witness :
    new_gradient_height 2 2 0 0 =
      some (1 + 3 * ((0 : ℝ) / ((2 : ℝ) - 1) + (0 : ℝ) / ((2 : ℝ) - 1)) / 2) := by
  have h := new_gradient_height_formula 2 2 0 0 (by norm_num) (by norm_num)
  simpa using h

/-- CLAIM C7: the optimal zoom scale is `(diagonal + 3) / viewport_size`
(so `0.13` at diagonal 10 and viewport 100), and the viewport size is the
window height exactly when the normalized yaw is within ±10° of 45° or of
225°, the window width otherwise. -/
theorem optimal_scale_value_and_viewport_choice :
    calculate_optimal_scale 10 100 = 0.13 ∧
      (∀ d v : ℝ, calculate_optimal_scale d v = (d + 3) / v) ∧
      (∀ (yaw_degrees : ℝ) (window : Window),
        (|(if yaw_degrees < 0 then yaw_degrees + 360 else yaw_degrees) - 45| ≤ 10 ∨
            |(if yaw_degrees < 0 then yaw_degrees + 360 else yaw_degrees) - 225| ≤ 10 →
          get_viewport_size_for_orientation yaw_degrees window = window.height) ∧
        (¬(|(if yaw_degrees < 0 then yaw_degrees + 360 else yaw_degrees) - 45| ≤ 10 ∨
            |(if yaw_degrees < 0 then yaw_degrees + 360 else yaw_degrees) - 225| ≤ 10) →
          get_viewport_size_for_orientation yaw_degrees window = window.width)) := by
  refine ⟨by norm_num [calculate_optimal_scale], fun d v => rfl, fun yaw_degrees window => ?_⟩
  set ny := if yaw_degrees < 0 then yaw_degrees + 360 else yaw_degrees with hny
  have hband : (|ny - 45| ≤ 10 ∨ |ny - 225| ≤ 10) ↔
      ((35 ≤ ny ∧ ny ≤ 55) ∨ (215 ≤ ny ∧ ny ≤ 235)) := by
    rw [abs_le, abs_le]
    constructor
    · rintro (⟨h1, h2⟩ | ⟨h1, h2⟩)
      · exact Or.inl ⟨by linarith, by linarith⟩
      · exact Or.inr ⟨by linarith, by linarith⟩
    · rintro (⟨h1, h2⟩ | ⟨h1, h2⟩)
      · exact Or.inl ⟨by linarith, by linarith⟩
      · exact Or.inr ⟨by linarith, by linarith⟩
  constructor
  · intro h
    unfold get_viewport_size_for_orientation
    rw [← hny, if_pos (hband.mp h)]
  · intro h
    unfold get_viewport_size_for_orientation
    rw [← hny, if_neg (fun hc => h (hband.mpr hc))]

/-- CLAIM C9: the focus-point computation is total and, for a near-horizontal
ray (`|direction.y| < 0.001`), the hex raycast is skipped entirely (no
division by `direction.y`) and the result is the point 10 units ahead along
the ray. -/
theorem focus_point_horizontal_fallback (camera_pos forward_dir : Vec3) (level : Level)
    (h : |forward_dir.y| < 0.001) :
    raycast_hex_surfaces camera_pos forward_dir level = none ∧
      calculate_camera_focus_point camera_pos forward_dir level =
        camera_pos.add (forward_dir.scale 10) := by
  have hray : raycast_hex_surfaces camera_pos forward_dir level = none := by
    unfold raycast_hex_surfaces
    rw [if_pos h]
  refine ⟨hray, ?_⟩
  unfold calculate_camera_focus_point
  rw [hray]
  simp only
  rw [if_pos h]

/-- Witness for C9's theorem at a concrete input: a ray with vertical
component `0.0005` from the origin over a trivial level. -/
theorem focus_point_horizontal_fallback_witness :
    raycast_hex_surfaces ⟨0, 0, 0⟩ ⟨1, 0.0005, 0⟩ ⟨"w", 1, 1, fun _ _ => 0⟩ = none ∧
      calculate_camera_focus_point ⟨0, 0, 0⟩ ⟨1, 0.0005, 0⟩ ⟨"w", 1, 1, fun _ _ => 0⟩ =
        Vec3.add ⟨0, 0, 0⟩ (Vec3.scale ⟨1, 0.0005, 0⟩ 10) :=
  focus_point_horizontal_fallback ⟨0, 0, 0⟩ ⟨1, 0.0005, 0⟩ ⟨"w", 1, 1, fun _ _ => 0⟩
    (by norm_num [abs_lt])

/-- CLAIM C4: for a single-cell field with a finite non-negative height, a
straight-down ray from directly above the cell and above its top surface
returns the point on the cell's top surface (vertical coordinate = the
stored height), produced by the hex raycast and not by the ground-plane
fallback. -/
theorem focus_point_single_cell (l : Level) (hw : l.width = 1) (hh : l.height = 1)
    (x0 y0 z0 : ℝ)
    (hhex : is_inside_regular_hexagon ⟨x0, z0⟩
      ⟨(hex_to_world_pos ⟨0, 0⟩).x, (hex_to_world_pos ⟨0, 0⟩).y⟩ 1)
    (hnn : 0 ≤ l.get_height ⟨0, 0⟩) (habove : l.get_height ⟨0, 0⟩ < y0) :
    raycast_hex_surfaces ⟨x0, y0, z0⟩ ⟨0, -1, 0⟩ l =
        some ⟨x0, l.get_height ⟨0, 0⟩, z0⟩ ∧
      calculate_camera_focus_point ⟨x0, y0, z0⟩ ⟨0, -1, 0⟩ l =
        ⟨x0, l.get_height ⟨0, 0⟩, z0⟩ := by
  have hgrid : l.get_hex_grid = [⟨0, 0⟩] := by
    unfold Level.get_hex_grid
    rw [hw, hh]
    rfl
  have hdir : ¬(|(-1 : ℝ)| < 0.001) := by
    rw [abs_neg, abs_one]
    norm_num
  have htpos : ¬((l.get_height ⟨0, 0⟩ - y0) / (-1 : ℝ) < 0) := by
    have ht : ((l.get_height ⟨0, 0⟩ - y0) / (-1 : ℝ)) = y0 - l.get_height ⟨0, 0⟩ := by
      ring
    rw [ht]
    linarith
  have hray : raycast_hex_surfaces ⟨x0, y0, z0⟩ ⟨0, -1, 0⟩ l =
      some ⟨x0, l.get_height ⟨0, 0⟩, z0⟩ := by
    unfold raycast_hex_surfaces
    rw [if_neg hdir, hgrid]
    simp only [List.findSome?]
    rw [if_neg htpos]
    have e1 : (⟨(Vec3.add ⟨x0, y0, z0⟩
          (Vec3.scale ⟨0, -1, 0⟩ ((l.get_height ⟨0, 0⟩ - y0) / (-1 : ℝ)))).x,
        (Vec3.add ⟨x0, y0, z0⟩
          (Vec3.scale ⟨0, -1, 0⟩ ((l.get_height ⟨0, 0⟩ - y0) / (-1 : ℝ)))).z⟩ : Vec2) =
        (⟨x0, z0⟩ : Vec2) := by
      simp only [Vec3.add, Vec3.scale, Vec2.mk.injEq]
      constructor <;> ring
    rw [e1, if_pos hhex]
    simp only [Vec3.add, Vec3.scale, Option.some.injEq, Vec3.mk.injEq]
    refine ⟨by ring, trivial, by ring⟩
  refine ⟨hray, ?_⟩
  unfold calculate_camera_focus_point
  rw [hray]

/-- Witness for C4's theorem at a concrete input: a 1×1 level of height 2,
ray origin 5 units above the cell center. -/
theorem focus_point_single_cell_witness :
    raycast_hex_surfaces ⟨0, 5, 0⟩ ⟨0, -1, 0⟩ ⟨"cell", 1, 1, fun _ _ => 2⟩ =
        some ⟨0, Level.get_height ⟨"cell", 1, 1, fun _ _ => 2⟩ ⟨0, 0⟩, 0⟩ ∧
      calculate_camera_focus_point ⟨0, 5, 0⟩ ⟨0, -1, 0⟩ ⟨"cell", 1, 1, fun _ _ => 2⟩ =
        ⟨0, Level.get_height ⟨"cell", 1, 1, fun _ _ => 2⟩ ⟨0, 0⟩, 0⟩ :=
  focus_point_single_cell ⟨"cell", 1, 1, fun _ _ => 2⟩ rfl rfl 0 5 0
    (by norm_num [is_inside_regular_hexagon, hex_to_world_pos])
    (by norm_num [Level.get_height])
    (by norm_num [Level.get_height])

/-- CLAIM C6: for widths and heights at least 1, the center-cell computation
returns exactly 1 cell (both odd), 4 cells (both even) or 2 cells straddling
the center along the even axis (mixed parity), and the center world position
is the unweighted arithmetic mean of the 3D world positions of exactly the
returned cells. -/
theorem center_hexes_parity_and_mean (l : Level) (hw : 1 ≤ l.width) (hh : 1 ≤ l.height) :
    (l.width % 2 = 1 ∧ l.height % 2 = 1 →
      l.get_center_hexes = [⟨l.width / 2, l.height / 2⟩] ∧
        l.get_center_hexes.length = 1 ∧
        l.get_center_world_pos = l.world_pos_3d ⟨l.width / 2, l.height / 2⟩) ∧
      (l.width % 2 = 0 ∧ l.height % 2 = 0 →
        l.get_center_hexes =
            [⟨l.width / 2 - 1, l.height / 2 - 1⟩, ⟨l.width / 2, l.height / 2 - 1⟩,
              ⟨l.width / 2 - 1, l.height / 2⟩, ⟨l.width / 2, l.height / 2⟩] ∧
          l.get_center_hexes.length = 4 ∧
          l.get_center_world_pos =
            ((l.world_pos_3d ⟨l.width / 2 - 1, l.height / 2 - 1⟩).add
                ((l.world_pos_3d ⟨l.width / 2, l.height / 2 - 1⟩).add
                  ((l.world_pos_3d ⟨l.width / 2 - 1, l.height / 2⟩).add
                    (l.world_pos_3d ⟨l.width / 2, l.height / 2⟩)))).divScalar 4) ∧
      (l.width % 2 = 0 ∧ l.height % 2 = 1 →
        l.get_center_hexes =
            [⟨l.width / 2 - 1, l.height / 2⟩, ⟨l.width / 2, l.height / 2⟩] ∧
          l.get_center_hexes.length = 2 ∧
          l.get_center_world_pos =
            ((l.world_pos_3d ⟨l.width / 2 - 1, l.height / 2⟩).add
                (l.world_pos_3d ⟨l.width / 2, l.height / 2⟩)).divScalar 2) ∧
      (l.width % 2 = 1 ∧ l.height % 2 = 0 →
        l.get_center_hexes =
            [⟨l.width / 2, l.height / 2 - 1⟩, ⟨l.width / 2, l.height / 2⟩] ∧
          l.get_center_hexes.length = 2 ∧
          l.get_center_world_pos =
            ((l.world_pos_3d ⟨l.width / 2, l.height / 2 - 1⟩).add
                (l.world_pos_3d ⟨l.width / 2, l.height / 2⟩)).divScalar 2) := by
  have htmw : l.width.tmod 2 = l.width % 2 := Int.tmod_eq_emod (by omega) (by norm_num)
  have htmh : l.height.tmod 2 = l.height % 2 := Int.tmod_eq_emod (by omega) (by norm_num)
  have htdw : l.width.tdiv 2 = l.width / 2 := Int.tdiv_eq_ediv (by omega) (by norm_num)
  have htdh : l.height.tdiv 2 = l.height / 2 := Int.tdiv_eq_ediv (by omega) (by norm_num)
  refine ⟨fun ⟨hpw, hph⟩ => ?_, fun ⟨hpw, hph⟩ => ?_, fun ⟨hpw, hph⟩ => ?_,
    fun ⟨hpw, hph⟩ => ?_⟩
  · have hlist : l.get_center_hexes = [⟨l.width / 2, l.height / 2⟩] := by
      unfold Level.get_center_hexes
      rw [htmw, htmh, htdw, htdh, if_pos ⟨hpw, hph⟩]
    refine ⟨hlist, by rw [hlist]; rfl, ?_⟩
    unfold Level.get_center_world_pos
    rw [hlist]
    simp only [List.foldl, List.length_cons, List.length_nil, Level.world_pos_3d,
      Vec3.add, Vec3.divScalar, Nat.cast_one, Nat.cast_ofNat, Nat.zero_add,
      Nat.reduceAdd, Vec3.mk.injEq]
    refine ⟨by ring, by ring, by ring⟩
  · have hlist : l.get_center_hexes =
        [⟨l.width / 2 - 1, l.height / 2 - 1⟩, ⟨l.width / 2, l.height / 2 - 1⟩,
          ⟨l.width / 2 - 1, l.height / 2⟩, ⟨l.width / 2, l.height / 2⟩] := by
      unfold Level.get_center_hexes
      rw [htmw, htmh, htdw, htdh, if_neg (by omega), if_pos ⟨hpw, hph⟩]
    refine ⟨hlist, by rw [hlist]; rfl, ?_⟩
    unfold Level.get_center_world_pos
    rw [hlist]
    simp only [List.foldl, List.length_cons, List.length_nil, Level.world_pos_3d,
      Vec3.add, Vec3.divScalar, Nat.cast_one, Nat.cast_ofNat, Nat.zero_add,
      Nat.reduceAdd, Vec3.mk.injEq]
    refine ⟨by ring, by ring, by ring⟩
  · have hlist : l.get_center_hexes =
        [⟨l.width / 2 - 1, l.height / 2⟩, ⟨l.width / 2, l.height / 2⟩] := by
      unfold Level.get_center_hexes
      rw [htmw, htmh, htdw, htdh, if_neg (by omega), if_neg (by omega),
        if_pos ⟨hpw, hph⟩]
    refine ⟨hlist, by rw [hlist]; rfl, ?_⟩
    unfold Level.get_center_world_pos
    rw [hlist]
    simp only [List.foldl, List.length_cons, List.length_nil, Level.world_pos_3d,
      Vec3.add, Vec3.divScalar, Nat.cast_one, Nat.cast_ofNat, Nat.zero_add,
      Nat.reduceAdd, Vec3.mk.injEq]
    refine ⟨by ring, by ring, by ring⟩
  · have hlist : l.get_center_hexes =
        [⟨l.width / 2, l.height / 2 - 1⟩, ⟨l.width / 2, l.height / 2⟩] := by
      unfold Level.get_center_hexes
      rw [htmw, htmh, htdw, htdh, if_neg (by omega), if_neg (by omega),
        if_neg (by omega), if_pos ⟨hpw, hph⟩]
    refine ⟨hlist, by rw [hlist]; rfl, ?_⟩
    unfold Level.get_center_world_pos
    rw [hlist]
    simp only [List.foldl, List.length_cons, List.length_nil, Level.world_pos_3d,
      Vec3.add, Vec3.divScalar, Nat.cast_one, Nat.cast_ofNat, Nat.zero_add,
      Nat.reduceAdd, Vec3.mk.injEq]
    refine ⟨by ring, by ring, by ring⟩

/-- Witness for C6's theorem at a concrete input: a 3×3 level has a single
center cell. -/
theorem center_hexes_parity_and_mean_witness :
    (Level.mk "c" 3 3 fun _ _ => 0).get_center_hexes.length = 1 :=
  ((center_hexes_parity_and_mean ⟨"c", 3, 3, fun _ _ => 0⟩ (by norm_num)
    (by norm_num)).1 ⟨by decide, by decide⟩).2.1

/-- Folding `min` distributes over the initial accumulator. -/
lemma foldl_min_init_comm (a b : ℝ) (xs : List ℝ) :
    xs.foldl min (min a b) = min a (xs.foldl min b) := by
  induction xs generalizing b with
  | nil => rfl
  | cons x t ih =>
    simp only [List.foldl]
    rw [min_assoc, ih]

/-- Folding `max` distributes over the initial accumulator. -/
lemma foldl_max_init_comm (a b : ℝ) (xs : List ℝ) :
    xs.foldl max (max a b) = max a (xs.foldl max b) := by
  induction xs generalizing b with
  | nil => rfl
  | cons x t ih =>
    simp only [List.foldl]
    rw [max_assoc, ih]

/-- A `min` fold never exceeds its initial accumulator. -/
lemma foldl_min_le_init (a : ℝ) (xs : List ℝ) : xs.foldl min a ≤ a := by
  induction xs generalizing a with
  | nil => exact le_refl a
  | cons x t ih => exact le_trans (ih (min a x)) (min_le_left a x)

/-- A `max` fold is at least its initial accumulator. -/
lemma init_le_foldl_max (a : ℝ) (xs : List ℝ) : a ≤ xs.foldl max a := by
  induction xs generalizing a with
  | nil => exact le_refl a
  | cons x t ih => exact le_trans (le_max_left a x) (ih (max a x))

/-- A `min` fold lands on the initial accumulator or on a list element. -/
lemma foldl_min_mem (a : ℝ) (xs : List ℝ) :
    xs.foldl min a = a ∨ xs.foldl min a ∈ xs := by
  induction xs generalizing a with
  | nil => exact Or.inl rfl
  | cons x t ih =>
    simp only [List.foldl]
    rcases ih (min a x) with h | h
    · rcases min_choice a x with hc | hc
      · exact Or.inl (by rw [h, hc])
      · exact Or.inr (by rw [h, hc]; exact List.mem_cons_self x t)
    · exact Or.inr (List.mem_cons_of_mem x h)

/-- A `max` fold lands on the initial accumulator or on a list element. -/
lemma foldl_max_mem (a : ℝ) (xs : List ℝ) :
    xs.foldl max a = a ∨ xs.foldl max a ∈ xs := by
  induction xs generalizing a with
  | nil => exact Or.inl rfl
  | cons x t ih =>
    simp only [List.foldl]
    rcases ih (max a x) with h | h
    · rcases max_choice a x with hc | hc
      · exact Or.inl (by rw [h, hc])
      · exact Or.inr (by rw [h, hc]; exact List.mem_cons_self x t)
    · exact Or.inr (List.mem_cons_of_mem x h)

/-- Translating every element and the accumulator translates a `min` fold. -/
lemma foldl_min_map_add (c a : ℝ) (xs : List ℝ) :
    (xs.map fun y => y + c).foldl min (a + c) = xs.foldl min a + c := by
  induction xs generalizing a with
  | nil => rfl
  | cons x t ih =>
    simp only [List.map, List.foldl]
    rw [min_add_add_right, ih]

/-- Translating every element and the accumulator translates a `max` fold. -/
lemma foldl_max_map_add (c a : ℝ) (xs : List ℝ) :
    (xs.map fun y => y + c).foldl max (a + c) = xs.foldl max a + c := by
  induction xs generalizing a with
  | nil => rfl
  | cons x t ih =>
    simp only [List.map, List.foldl]
    rw [max_add_add_right, ih]

/-- The min/max pair fold of `get_world_bounds` computed componentwise. -/
lemma foldl_bounds_pair (ps : List Vec3) (a b : Vec3) :
    ps.foldl (fun acc p => (acc.1.vmin p, acc.2.vmax p)) (a, b) =
      (⟨(ps.map Vec3.x).foldl min a.x, (ps.map Vec3.y).foldl min a.y,
          (ps.map Vec3.z).foldl min a.z⟩,
        ⟨(ps.map Vec3.x).foldl max b.x, (ps.map Vec3.y).foldl max b.y,
          (ps.map Vec3.z).foldl max b.z⟩) := by
  induction ps generalizing a b with
  | nil => rfl
  | cons p t ih =>
    simp only [List.map, List.foldl]
    rw [ih]
    rfl

/-- `get_world_bounds` written as six one-dimensional folds over the grid's
world coordinates. -/
lemma get_world_bounds_spec (l : Level) :
    l.get_world_bounds =
      (⟨(l.get_hex_grid.map fun hex => (hex_to_world_pos hex).x).foldl min f32MAX,
          (l.get_hex_grid.map l.get_height).foldl min f32MAX,
          (l.get_hex_grid.map fun hex => (hex_to_world_pos hex).y).foldl min f32MAX⟩,
        ⟨(l.get_hex_grid.map fun hex => (hex_to_world_pos hex).x).foldl max (-f32MAX),
          (l.get_hex_grid.map l.get_height).foldl max (-f32MAX),
          (l.get_hex_grid.map fun hex => (hex_to_world_pos hex).y).foldl max
            (-f32MAX)⟩) := by
  unfold Level.get_world_bounds
  rw [← List.foldl_map l.world_pos_3d
    (fun (acc : Vec3 × Vec3) p => (acc.1.vmin p, acc.2.vmax p))]
  rw [foldl_bounds_pair]
  simp only [List.map_map]
  rfl

/-- Every grid cell is in bounds of its level. -/
lemma mem_hex_grid_bounds (l : Level) (hex : Hex) (h : hex ∈ l.get_hex_grid) :
    0 ≤ hex.x ∧ hex.x < l.width ∧ 0 ≤ hex.y ∧ hex.y < l.height := by
  unfold Level.get_hex_grid at h
  rcases List.mem_flatMap.mp h with ⟨q, hq, hmap⟩
  rcases List.mem_map.mp hmap with ⟨r, hr, heq⟩
  rw [List.mem_range] at hq hr
  subst heq
  dsimp only
  refine ⟨by omega, by omega, by omega, by omega⟩

/-- A grid with positive dimensions contains the origin cell. -/
lemma origin_mem_hex_grid (l : Level) (hw : 1 ≤ l.width) (hh : 1 ≤ l.height) :
    (⟨0, 0⟩ : Hex) ∈ l.get_hex_grid := by
  unfold Level.get_hex_grid
  refine List.mem_flatMap.mpr ⟨0, List.mem_range.mpr (by omega), ?_⟩
  exact List.mem_map.mpr ⟨0, List.mem_range.mpr (by omega), rfl⟩

/-- For a nonempty list of f32-representable values the `f32::MAX` sentinel
drops out of the min fold. -/
lemma foldl_min_sentinel (y0 : ℝ) (t : List ℝ) (hb : ∀ y ∈ y0 :: t, |y| ≤ f32MAX) :
    (y0 :: t).foldl min f32MAX = t.foldl min y0 := by
  have h1 : t.foldl min y0 ≤ f32MAX := by
    rcases foldl_min_mem y0 t with h | h
    · rw [h]
      exact (abs_le.mp (hb y0 (List.mem_cons_self y0 t))).2
    · exact (abs_le.mp (hb _ (List.mem_cons_of_mem y0 h))).2
  calc (y0 :: t).foldl min f32MAX = t.foldl min (min f32MAX y0) := rfl
  _ = min f32MAX (t.foldl min y0) := foldl_min_init_comm f32MAX y0 t
  _ = t.foldl min y0 := min_eq_right h1

/-- For a nonempty list of f32-representable values the `f32::MIN` sentinel
drops out of the max fold. -/
lemma foldl_max_sentinel (y0 : ℝ) (t : List ℝ) (hb : ∀ y ∈ y0 :: t, |y| ≤ f32MAX) :
    (y0 :: t).foldl max (-f32MAX) = t.foldl max y0 := by
  have h1 : -f32MAX ≤ t.foldl max y0 := by
    rcases foldl_max_mem y0 t with h | h
    · rw [h]
      exact (abs_le.mp (hb y0 (List.mem_cons_self y0 t))).1
    · exact (abs_le.mp (hb _ (List.mem_cons_of_mem y0 h))).1
  calc (y0 :: t).foldl max (-f32MAX) = t.foldl max (max (-f32MAX) y0) := rfl
  _ = max (-f32MAX) (t.foldl max y0) := foldl_max_init_comm (-f32MAX) y0 t
  _ = t.foldl max y0 := max_eq_right h1

/-- Min fold over the translated list, sentinel included. -/
lemma foldl_min_sentinel_shift (c y0 : ℝ) (t : List ℝ)
    (hb : ∀ y ∈ y0 :: t, |y + c| ≤ f32MAX) :
    ((y0 :: t).map fun y => y + c).foldl min f32MAX = t.foldl min y0 + c := by
  have h1 : t.foldl min y0 + c ≤ f32MAX := by
    rcases foldl_min_mem y0 t with h | h
    · rw [h]
      exact (abs_le.mp (hb y0 (List.mem_cons_self y0 t))).2
    · exact (abs_le.mp (hb _ (List.mem_cons_of_mem y0 h))).2
  calc ((y0 :: t).map fun y => y + c).foldl min f32MAX
      = (t.map fun y => y + c).foldl min (min f32MAX (y0 + c)) := rfl
  _ = min f32MAX ((t.map fun y => y + c).foldl min (y0 + c)) :=
      foldl_min_init_comm f32MAX (y0 + c) (t.map fun y => y + c)
  _ = min f32MAX (t.foldl min y0 + c) := by rw [foldl_min_map_add]
  _ = t.foldl min y0 + c := min_eq_right h1

/-- Max fold over the translated list, sentinel included. -/
lemma foldl_max_sentinel_shift (c y0 : ℝ) (t : List ℝ)
    (hb : ∀ y ∈ y0 :: t, |y + c| ≤ f32MAX) :
    ((y0 :: t).map fun y => y + c).foldl max (-f32MAX) = t.foldl max y0 + c := by
  have h1 : -f32MAX ≤ t.foldl max y0 + c := by
    rcases foldl_max_mem y0 t with h | h
    · rw [h]
      exact (abs_le.mp (hb y0 (List.mem_cons_self y0 t))).1
    · exact (abs_le.mp (hb _ (List.mem_cons_of_mem y0 h))).1
  calc ((y0 :: t).map fun y => y + c).foldl max (-f32MAX)
      = (t.map fun y => y + c).foldl max (max (-f32MAX) (y0 + c)) := rfl
  _ = max (-f32MAX) ((t.map fun y => y + c).foldl max (y0 + c)) :=
      foldl_max_init_comm (-f32MAX) (y0 + c) (t.map fun y => y + c)
  _ = max (-f32MAX) (t.foldl max y0 + c) := by rw [foldl_max_map_add]
  _ = t.foldl max y0 + c := max_eq_right h1

/-- The spread (maximum minus minimum) of a list of values; `0` for the
empty list.  This formalises the claim's phrase "max height minus min
height". -/
noncomputable def list_spread : List ℝ → ℝ
  | [] => 0
  | y :: t => t.foldl max y - t.foldl min y

/-- The height spread of a level: the spread of the stored heights over the
grid. -/
noncomputable def Level.height_spread (l : Level) : ℝ :=
  list_spread (l.get_hex_grid.map l.get_height)

/-- A spread is never negative. -/
lemma list_spread_nonneg (ys : List ℝ) : 0 ≤ list_spread ys := by
  match ys with
  | [] => exact le_refl 0
  | y :: t =>
    have h1 := foldl_min_le_init y t
    have h2 := init_le_foldl_max y t
    simp only [list_spread]
    linarith

/-- The heights of the translated level over the grid are the translated
heights of the original. -/
lemma map_get_height_translate (l : Level) (c : ℝ) :
    l.get_hex_grid.map
        (Level.mk l.name l.width l.height fun r q => l.heights r q + c).get_height =
      (l.get_hex_grid.map l.get_height).map fun y => y + c := by
  rw [List.map_map]
  apply List.map_congr_left
  intro hex hx
  have hb := mem_hex_grid_bounds l hex hx
  simp only [Function.comp_apply, Level.get_height]
  rw [if_pos ⟨hb.1, hb.2.1, hb.2.2.1, hb.2.2.2⟩, if_pos ⟨hb.1, hb.2.1, hb.2.2.1, hb.2.2.2⟩]

/-- CLAIM C5: the diagonal extent is invariant under adding one constant to
every cell height (for heights that stay f32-representable), and of two
levels with the same dimensions and f32-representable heights, the one with
the strictly larger height spread has the strictly larger diagonal
extent. -/
theorem diagonal_extent_translation_invariant_and_spread_monotone :
    (∀ (l : Level) (c : ℝ), 1 ≤ l.width → 1 ≤ l.height →
      (∀ hex ∈ l.get_hex_grid, |l.get_height hex| ≤ f32MAX ∧
        |l.get_height hex + c| ≤ f32MAX) →
      (Level.mk l.name l.width l.height fun r q =>
          l.heights r q + c).get_level_diagonal_extent =
        l.get_level_diagonal_extent) ∧
      (∀ l1 l2 : Level, l1.width = l2.width → l1.height = l2.height →
        1 ≤ l1.width → 1 ≤ l1.height →
        (∀ hex ∈ l1.get_hex_grid, |l1.get_height hex| ≤ f32MAX) →
        (∀ hex ∈ l2.get_hex_grid, |l2.get_height hex| ≤ f32MAX) →
        l1.height_spread < l2.height_spread →
        l1.get_level_diagonal_extent < l2.get_level_diagonal_extent) := by
  constructor
  · intro l c hw hh hb
    obtain ⟨y0, t, hys⟩ : ∃ y0 t, l.get_hex_grid.map l.get_height = y0 :: t := by
      have hmem : l.get_height ⟨0, 0⟩ ∈ l.get_hex_grid.map l.get_height :=
        List.mem_map.mpr ⟨⟨0, 0⟩, origin_mem_hex_grid l hw hh, rfl⟩
      cases hcase : l.get_hex_grid.map l.get_height with
      | nil => rw [hcase] at hmem; exact absurd hmem (List.not_mem_nil _)
      | cons y0 t => exact ⟨y0, t, rfl⟩
    have hb1 : ∀ y ∈ y0 :: t, |y| ≤ f32MAX := by
      rw [← hys]
      intro y hy
      rcases List.mem_map.mp hy with ⟨hex, hhex, rfl⟩
      exact (hb hex hhex).1
    have hb2 : ∀ y ∈ y0 :: t, |y + c| ≤ f32MAX := by
      rw [← hys]
      intro y hy
      rcases List.mem_map.mp hy with ⟨hex, hhex, rfl⟩
      exact (hb hex hhex).2
    unfold Level.get_level_diagonal_extent
    rw [get_world_bounds_spec, get_world_bounds_spec]
    dsimp only
    rw [show (Level.mk l.name l.width l.height fun r q =>
        l.heights r q + c).get_hex_grid = l.get_hex_grid from rfl]
    rw [map_get_height_translate l c, hys]
    rw [foldl_min_sentinel y0 t hb1, foldl_max_sentinel y0 t hb1,
      foldl_min_sentinel_shift c y0 t hb2, foldl_max_sentinel_shift c y0 t hb2]
    congr 1
    ring
  · intro l1 l2 hW hH hw hh hb1 hb2 hsp
    have hgrid12 : l1.get_hex_grid = l2.get_hex_grid := by
      unfold Level.get_hex_grid
      rw [hW, hH]
    obtain ⟨a0, s, hys1⟩ : ∃ a0 s, l1.get_hex_grid.map l1.get_height = a0 :: s := by
      have hmem : l1.get_height ⟨0, 0⟩ ∈ l1.get_hex_grid.map l1.get_height :=
        List.mem_map.mpr ⟨⟨0, 0⟩, origin_mem_hex_grid l1 hw hh, rfl⟩
      cases hcase : l1.get_hex_grid.map l1.get_height with
      | nil => rw [hcase] at hmem; exact absurd hmem (List.not_mem_nil _)
      | cons a0 s => exact ⟨a0, s, rfl⟩
    obtain ⟨b0, u, hys2⟩ : ∃ b0 u, l2.get_hex_grid.map l2.get_height = b0 :: u := by
      have hmem : l2.get_height ⟨0, 0⟩ ∈ l2.get_hex_grid.map l2.get_height :=
        List.mem_map.mpr ⟨⟨0, 0⟩,
          origin_mem_hex_grid l2 (hW ▸ hw) (hH ▸ hh), rfl⟩
      cases hcase : l2.get_hex_grid.map l2.get_height with
      | nil => rw [hcase] at hmem; exact absurd hmem (List.not_mem_nil _)
      | cons b0 u => exact ⟨b0, u, rfl⟩
    have hba : ∀ y ∈ a0 :: s, |y| ≤ f32MAX := by
      rw [← hys1]
      intro y hy
      rcases List.mem_map.mp hy with ⟨hex, hhex, rfl⟩
      exact hb1 hex hhex
    have hbb : ∀ y ∈ b0 :: u, |y| ≤ f32MAX := by
      rw [← hys2]
      intro y hy
      rcases List.mem_map.mp hy with ⟨hex, hhex, rfl⟩
      exact hb2 hex hhex
    have hs1 : l1.height_spread = s.foldl max a0 - s.foldl min a0 := by
      unfold Level.height_spread
      rw [hys1]
      rfl
    have hs2 : l2.height_spread = u.foldl max b0 - u.foldl min b0 := by
      unfold Level.height_spread
      rw [hys2]
      rfl
    have hs1nn : 0 ≤ l1.height_spread := by
      have := list_spread_nonneg (l1.get_hex_grid.map l1.get_height)
      unfold Level.height_spread at *
      exact this
    unfold Level.get_level_diagonal_extent
    rw [get_world_bounds_spec, get_world_bounds_spec]
    dsimp only
    rw [hys1, hys2, ← hgrid12]
    rw [foldl_min_sentinel a0 s hba, foldl_max_sentinel a0 s hba,
      foldl_min_sentinel b0 u hbb, foldl_max_sentinel b0 u hbb]
    apply Real.sqrt_lt_sqrt
    · have h1 := mul_self_nonneg ((l1.get_hex_grid.map fun hex =>
        (hex_to_world_pos hex).x).foldl max (-f32MAX) -
          (l1.get_hex_grid.map fun hex => (hex_to_world_pos hex).x).foldl min f32MAX)
      have h2 := mul_self_nonneg ((l1.get_hex_grid.map fun hex =>
        (hex_to_world_pos hex).y).foldl max (-f32MAX) -
          (l1.get_hex_grid.map fun hex => (hex_to_world_pos hex).y).foldl min f32MAX)
      have h3 := mul_self_nonneg (s.foldl max a0 - s.foldl min a0)
      linarith
    · have hlt : (s.foldl max a0 - s.foldl min a0) * (s.foldl max a0 - s.foldl min a0) <
          (u.foldl max b0 - u.foldl min b0) * (u.foldl max b0 - u.foldl min b0) := by
        apply mul_self_lt_mul_self
        · rw [← hs1]
          exact hs1nn
        · rw [← hs1, ← hs2]
          exact hsp
      linarith

/-- `Quat::from_rotation_y(angle)`: the unit quaternion
`(cos(angle/2), 0, sin(angle/2), 0)` in `(re, i, j, k)` components. -/
noncomputable def quatFromRotationY (angle : ℝ) : Quaternion ℝ :=
  ⟨Real.cos (angle / 2), 0, Real.sin (angle / 2), 0⟩

/-- The imaginary part of a quaternion as a vector. -/
noncomputable def quatToVec (q : Quaternion ℝ) : Vec3 := ⟨q.imI, q.imJ, q.imK⟩

/-- A vector as a pure-imaginary quaternion. -/
noncomputable def vecToQuat (v : Vec3) : Quaternion ℝ := ⟨0, v.x, v.y, v.z⟩

/-- Bevy's `quat * vec3` rotation of a vector by a unit quaternion: the
conjugation `q v q*` (bevy's optimised product equals this for the unit
quaternions the source builds). -/
noncomputable def quatRotate (q : Quaternion ℝ) (v : Vec3) : Vec3 :=
  quatToVec (q * vecToQuat v * star q)

/-- A bevy `Transform`, reduced to the two fields the camera code uses. -/
structure Transform where
  translation : Vec3
  rotation : Quaternion ℝ

/-- `Transform::forward()`: the rotated `-Z` axis. -/
noncomputable def Transform.forward (t : Transform) : Vec3 :=
  quatRotate t.rotation ⟨0, 0, -1⟩

/-- `orbit_camera_around_point`: rotate the offset from the pivot about the
vertical axis and apply the same rotation to the orientation. -/
noncomputable def orbit_camera_around_point (t : Transform) (pivot : Vec3)
    (y_rotation : ℝ) : Transform :=
  let offset := t.translation.sub pivot
  let rotation_quat := quatFromRotationY y_rotation
  let rotated_offset := quatRotate rotation_quat offset
  { translation := pivot.add rotated_offset, rotation := rotation_quat * t.rotation }

/-- Rotation about the vertical axis in explicit matrix form. -/
lemma quatRotate_y_explicit (angle : ℝ) (v : Vec3) :
    quatRotate (quatFromRotationY angle) v =
      ⟨v.x * Real.cos angle + v.z * Real.sin angle, v.y,
        -v.x * Real.sin angle + v.z * Real.cos angle⟩ := by
  have hc := Real.sin_sq_add_cos_sq (angle / 2)
  have h2 : 2 * (angle / 2) = angle := by ring
  have hcos := Real.cos_two_mul (angle / 2)
  rw [h2] at hcos
  have hsin := Real.sin_two_mul (angle / 2)
  rw [h2] at hsin
  unfold quatRotate quatFromRotationY quatToVec vecToQuat
  simp only [Quaternion.mul_re, Quaternion.mul_imI, Quaternion.mul_imJ, Quaternion.mul_imK,
    Quaternion.star_re, Quaternion.star_imI, Quaternion.star_imJ, Quaternion.star_imK]
  rw [Vec3.mk.injEq]
  refine ⟨?_, ?_, ?_⟩
  · rw [hcos, hsin]
    linear_combination (-v.x) * hc
  · linear_combination v.y * hc
  · rw [hcos, hsin]
    linear_combination (-v.z) * hc

/-- Conjugating twice is conjugating by the product. -/
lemma quatRotate_comp (q p : Quaternion ℝ) (v : Vec3) :
    quatRotate q (quatRotate p v) = quatRotate (q * p) v := by
  unfold quatRotate quatToVec vecToQuat
  simp only [Quaternion.mul_re, Quaternion.mul_imI, Quaternion.mul_imJ, Quaternion.mul_imK,
    Quaternion.star_re, Quaternion.star_imI, Quaternion.star_imJ, Quaternion.star_imK]
  rw [Vec3.mk.injEq]
  refine ⟨by ring, by ring, by ring⟩

/-- Vertical-axis rotation quaternions compose additively. -/
lemma quatFromRotationY_mul (a b : ℝ) :
    quatFromRotationY a * quatFromRotationY b = quatFromRotationY (a + b) := by
  unfold quatFromRotationY
  have ha : (a + b) / 2 = a / 2 + b / 2 := by ring
  apply Quaternion.ext
  · simp only [Quaternion.mul_re]
    rw [ha, Real.cos_add]
    ring
  · simp only [Quaternion.mul_imI]
    ring
  · simp only [Quaternion.mul_imJ]
    rw [ha, Real.sin_add]
    ring
  · simp only [Quaternion.mul_imK]
    ring

/-- Adding an offset to a point and subtracting the point recovers the
offset. -/
lemma vec_add_sub_cancel (p w : Vec3) : (p.add w).sub p = w := by
  cases p with
  | mk a b c =>
    cases w with
    | mk d e f =>
      simp only [Vec3.add, Vec3.sub, Vec3.mk.injEq]
      refine ⟨by ring, by ring, by ring⟩

/-- Orbiting by zero is the identity. -/
lemma orbit_zero (t : Transform) (pivot : Vec3) :
    orbit_camera_around_point t pivot 0 = t := by
  have hq : quatFromRotationY 0 = 1 := by
    unfold quatFromRotationY
    apply Quaternion.ext <;> simp
  unfold orbit_camera_around_point
  dsimp only
  rw [quatRotate_y_explicit, hq, one_mul]
  cases t with
  | mk tr rot =>
    cases tr with
    | mk x y z =>
      cases pivot with
      | mk px py pz =>
        simp only [Vec3.sub, Vec3.add, Real.cos_zero, Real.sin_zero,
          Transform.mk.injEq, Vec3.mk.injEq]
        exact ⟨⟨by ring, by ring, by ring⟩, trivial⟩

/-- Two successive orbits around the same pivot compose additively. -/
lemma orbit_orbit (t : Transform) (pivot : Vec3) (a b : ℝ) :
    orbit_camera_around_point (orbit_camera_around_point t pivot a) pivot b =
      orbit_camera_around_point t pivot (b + a) := by
  unfold orbit_camera_around_point
  dsimp only
  rw [vec_add_sub_cancel, quatRotate_comp, quatFromRotationY_mul, ← mul_assoc,
    quatFromRotationY_mul]

/-- CLAIM C10: one orbit step keeps the camera on the same sphere around the
pivot and at the same height above it: the new position is the pivot plus
the old offset rotated about the vertical axis, the distance to the pivot
and the vertical offset component are unchanged. -/
theorem orbit_preserves_distance_and_height (t : Transform) (pivot : Vec3) (angle : ℝ) :
    (orbit_camera_around_point t pivot angle).translation =
        pivot.add (quatRotate (quatFromRotationY angle) (t.translation.sub pivot)) ∧
      ((orbit_camera_around_point t pivot angle).translation.sub pivot).norm =
        (t.translation.sub pivot).norm ∧
      ((orbit_camera_around_point t pivot angle).translation.sub pivot).y =
        (t.translation.sub pivot).y := by
  have hc := Real.sin_sq_add_cos_sq angle
  refine ⟨rfl, ?_, ?_⟩
  · unfold orbit_camera_around_point
    dsimp only
    rw [vec_add_sub_cancel, quatRotate_y_explicit]
    unfold Vec3.norm Vec3.normSq
    congr 1
    dsimp only
    linear_combination ((t.translation.sub pivot).x * (t.translation.sub pivot).x +
      (t.translation.sub pivot).z * (t.translation.sub pivot).z) * hc
  · unfold orbit_camera_around_point
    dsimp only
    rw [vec_add_sub_cancel, quatRotate_y_explicit]

/-- The `RotationMode` enum: `Stable`, or a direction with the remaining
rotation in radians. -/
inductive RotationMode where
  | Stable : RotationMode
  | Clockwise : ℝ → RotationMode
  | CounterClockwise : ℝ → RotationMode

/-- The `CameraRotationState` resource. -/
structure CameraRotationState where
  rotation_mode : RotationMode
  focus_point : Vec3

/-- `camera_rotation_input_system` (input.rs), one rotate key press: only
accepted while `Stable`; captures the focus point from the camera's current
position and forward direction and sets 90° (`π/2` radians) of remaining
rotation in the requested direction. -/
noncomputable def camera_rotation_input_system (clockwise : Bool) (level : Level)
    (t : Transform) (st : CameraRotationState) : CameraRotationState :=
  match st.rotation_mode with
  | RotationMode.Stable =>
    { focus_point := calculate_camera_focus_point t.translation t.forward level
      rotation_mode :=
        if clockwise then RotationMode.Clockwise (Real.pi / 2)
        else RotationMode.CounterClockwise (Real.pi / 2) }
  | _ => st

/-- `camera_rotation_animation_system` (camera.rs), one tick of `dt`
seconds: advance by `min(rotation_speed * dt, remaining)` with
`rotation_speed = 180°/s` (`π` rad/s), orbit around the cached focus point
(negative angle for clockwise), and snap to `Stable` (marking the limits for
reprocessing) when the remaining angle is consumed. -/
noncomputable def camera_rotation_animation_system (dt : ℝ) (st : CameraRotationState)
    (camera_limits : CameraLimits) (t : Transform) :
    CameraRotationState × CameraLimits × Transform :=
  match st.rotation_mode with
  | RotationMode.Clockwise remaining =>
    let rotation_speed := Real.pi
    let delta_rotation := rotation_speed * dt
    let this_frame_rotation := min delta_rotation remaining
    let t1 := orbit_camera_around_point t st.focus_point (-this_frame_rotation)
    let remaining1 := remaining - this_frame_rotation
    if remaining1 ≤ 0 then
      ({ rotation_mode := RotationMode.Stable, focus_point := st.focus_point },
        { camera_limits with rotation_processed := false }, t1)
    else
      (CameraRotationState.mk (RotationMode.Clockwise remaining1) st.focus_point,
        camera_limits, t1)
  | RotationMode.CounterClockwise remaining =>
    let rotation_speed := Real.pi
    let delta_rotation := rotation_speed * dt
    let this_frame_rotation := min delta_rotation remaining
    let t1 := orbit_camera_around_point t st.focus_point this_frame_rotation
    let remaining1 := remaining - this_frame_rotation
    if remaining1 ≤ 0 then
      ({ rotation_mode := RotationMode.Stable, focus_point := st.focus_point },
        { camera_limits with rotation_processed := false }, t1)
    else
      (CameraRotationState.mk (RotationMode.CounterClockwise remaining1) st.focus_point,
        camera_limits, t1)
  | RotationMode.Stable => (st, camera_limits, t)

/-- A sequence of animation ticks with the given frame durations. -/
noncomputable def run_rotation_ticks (dts : List ℝ) (st : CameraRotationState)
    (camera_limits : CameraLimits) (t : Transform) :
    CameraRotationState × CameraLimits × Transform :=
  dts.foldl (fun acc dt => camera_rotation_animation_system dt acc.1 acc.2.1 acc.2.2)
    (st, camera_limits, t)

/-- Ticks in the `Stable` state change nothing. -/
lemma run_rotation_ticks_stable (dts : List ℝ) (fp : Vec3) (lim : CameraLimits)
    (t : Transform) :
    run_rotation_ticks dts ⟨RotationMode.Stable, fp⟩ lim t =
      (⟨RotationMode.Stable, fp⟩, lim, t) := by
  induction dts with
  | nil => rfl
  | cons d ds ih =>
    have h1 : run_rotation_ticks (d :: ds) ⟨RotationMode.Stable, fp⟩ lim t =
        run_rotation_ticks ds ⟨RotationMode.Stable, fp⟩ lim t := rfl
    rw [h1, ih]

/-- Exact characterisation of a clockwise rotation run: with `r > 0` radians
remaining and nonnegative frame durations, the run consumes
`min(r, π·Σdt)` radians, orbiting by exactly `-r` in total once enough time
has accumulated and by `-π·Σdt` before that. -/
lemma run_rotation_ticks_clockwise (dts : List ℝ) (hd : ∀ d ∈ dts, 0 ≤ d) (r : ℝ)
    (hr : 0 < r) (fp : Vec3) (lim : CameraLimits) (t : Transform) :
    run_rotation_ticks dts ⟨RotationMode.Clockwise r, fp⟩ lim t =
      if r ≤ Real.pi * dts.sum then
        (⟨RotationMode.Stable, fp⟩, { lim with rotation_processed := false },
          orbit_camera_around_point t fp (-r))
      else
        (⟨RotationMode.Clockwise (r - Real.pi * dts.sum), fp⟩, lim,
          orbit_camera_around_point t fp (-(Real.pi * dts.sum))) := by
  induction dts generalizing r lim t with
  | nil =>
    rw [show run_rotation_ticks [] ⟨RotationMode.Clockwise r, fp⟩ lim t =
      (⟨RotationMode.Clockwise r, fp⟩, lim, t) from rfl]
    rw [List.sum_nil, mul_zero, if_neg (not_le.mpr hr)]
    rw [sub_zero, neg_zero, orbit_zero]
  | cons d ds ih =>
    have hd0 : 0 ≤ d := hd d (List.mem_cons_self d ds)
    have hds : ∀ x ∈ ds, 0 ≤ x := fun x hx => hd x (List.mem_cons_of_mem d hx)
    have hsum : 0 ≤ ds.sum := List.sum_nonneg hds
    have hstep : run_rotation_ticks (d :: ds) ⟨RotationMode.Clockwise r, fp⟩ lim t =
        run_rotation_ticks ds
          (camera_rotation_animation_system d ⟨RotationMode.Clockwise r, fp⟩ lim t).1
          (camera_rotation_animation_system d ⟨RotationMode.Clockwise r, fp⟩ lim t).2.1
          (camera_rotation_animation_system d ⟨RotationMode.Clockwise r, fp⟩ lim t).2.2 :=
      rfl
    rcases le_or_lt r (Real.pi * d) with hcase | hcase
    · have hmin : min (Real.pi * d) r = r := min_eq_right hcase
      have hstep2 : camera_rotation_animation_system d ⟨RotationMode.Clockwise r, fp⟩
          lim t =
          (⟨RotationMode.Stable, fp⟩, { lim with rotation_processed := false },
            orbit_camera_around_point t fp (-r)) := by
        unfold camera_rotation_animation_system
        dsimp only
        rw [hmin, if_pos (by linarith)]
      rw [hstep, hstep2]
      rw [run_rotation_ticks_stable]
      have hps : 0 ≤ Real.pi * ds.sum := mul_nonneg Real.pi_pos.le hsum
      rw [List.sum_cons, if_pos (by rw [mul_add]; linarith)]
    · have hmin : min (Real.pi * d) r = Real.pi * d := min_eq_left hcase.le
      have hstep2 : camera_rotation_animation_system d ⟨RotationMode.Clockwise r, fp⟩
          lim t =
          (⟨RotationMode.Clockwise (r - Real.pi * d), fp⟩, lim,
            orbit_camera_around_point t fp (-(Real.pi * d))) := by
        unfold camera_rotation_animation_system
        dsimp only
        rw [hmin, if_neg (not_le.mpr (by linarith))]
      rw [hstep, hstep2]
      rw [ih hds (r - Real.pi * d) (by linarith)]
      rw [List.sum_cons]
      rcases le_or_lt (r - Real.pi * d) (Real.pi * ds.sum) with hc2 | hc2
      · rw [if_pos hc2, if_pos (by rw [mul_add]; linarith), orbit_orbit,
          show -(r - Real.pi * d) + -(Real.pi * d) = -r from by ring]
      · rw [if_neg (not_le.mpr (by linarith)),
          if_neg (not_le.mpr (by rw [mul_add]; linarith)), orbit_orbit,
          show r - Real.pi * d - Real.pi * ds.sum = r - Real.pi * (d + ds.sum) from by
            ring,
          show -(Real.pi * ds.sum) + -(Real.pi * d) = -(Real.pi * (d + ds.sum)) from by
            ring]

/-- Exact characterisation of a counterclockwise rotation run, mirroring the
clockwise one with a positive orbit angle. -/
lemma run_rotation_ticks_counterclockwise (dts : List ℝ) (hd : ∀ d ∈ dts, 0 ≤ d)
    (r : ℝ) (hr : 0 < r) (fp : Vec3) (lim : CameraLimits) (t : Transform) :
    run_rotation_ticks dts ⟨RotationMode.CounterClockwise r, fp⟩ lim t =
      if r ≤ Real.pi * dts.sum then
        (⟨RotationMode.Stable, fp⟩, { lim with rotation_processed := false },
          orbit_camera_around_point t fp r)
      else
        (⟨RotationMode.CounterClockwise (r - Real.pi * dts.sum), fp⟩, lim,
          orbit_camera_around_point t fp (Real.pi * dts.sum)) := by
  induction dts generalizing r lim t with
  | nil =>
    rw [show run_rotation_ticks [] ⟨RotationMode.CounterClockwise r, fp⟩ lim t =
      (⟨RotationMode.CounterClockwise r, fp⟩, lim, t) from rfl]
    rw [List.sum_nil, mul_zero, if_neg (not_le.mpr hr)]
    rw [sub_zero, orbit_zero]
  | cons d ds ih =>
    have hd0 : 0 ≤ d := hd d (List.mem_cons_self d ds)
    have hds : ∀ x ∈ ds, 0 ≤ x := fun x hx => hd x (List.mem_cons_of_mem d hx)
    have hsum : 0 ≤ ds.sum := List.sum_nonneg hds
    have hstep : run_rotation_ticks (d :: ds) ⟨RotationMode.CounterClockwise r, fp⟩
        lim t =
        run_rotation_ticks ds
          (camera_rotation_animation_system d ⟨RotationMode.CounterClockwise r, fp⟩
            lim t).1
          (camera_rotation_animation_system d ⟨RotationMode.CounterClockwise r, fp⟩
            lim t).2.1
          (camera_rotation_animation_system d ⟨RotationMode.CounterClockwise r, fp⟩
            lim t).2.2 :=
      rfl
    rcases le_or_lt r (Real.pi * d) with hcase | hcase
    · have hmin : min (Real.pi * d) r = r := min_eq_right hcase
      have hstep2 : camera_rotation_animation_system d
          ⟨RotationMode.CounterClockwise r, fp⟩ lim t =
          (⟨RotationMode.Stable, fp⟩, { lim with rotation_processed := false },
            orbit_camera_around_point t fp r) := by
        unfold camera_rotation_animation_system
        dsimp only
        rw [hmin, if_pos (by linarith)]
      rw [hstep, hstep2]
      rw [run_rotation_ticks_stable]
      have hps : 0 ≤ Real.pi * ds.sum := mul_nonneg Real.pi_pos.le hsum
      rw [List.sum_cons, if_pos (by rw [mul_add]; linarith)]
    · have hmin : min (Real.pi * d) r = Real.pi * d := min_eq_left hcase.le
      have hstep2 : camera_rotation_animation_system d
          ⟨RotationMode.CounterClockwise r, fp⟩ lim t =
          (⟨RotationMode.CounterClockwise (r - Real.pi * d), fp⟩, lim,
            orbit_camera_around_point t fp (Real.pi * d)) := by
        unfold camera_rotation_animation_system
        dsimp only
        rw [hmin, if_neg (not_le.mpr (by linarith))]
      rw [hstep, hstep2]
      rw [ih hds (r - Real.pi * d) (by linarith)]
      rw [List.sum_cons]
      rcases le_or_lt (r - Real.pi * d) (Real.pi * ds.sum) with hc2 | hc2
      · rw [if_pos hc2, if_pos (by rw [mul_add]; linarith), orbit_orbit,
          show r - Real.pi * d + Real.pi * d = r from by ring]
      · rw [if_neg (not_le.mpr (by linarith)),
          if_neg (not_le.mpr (by rw [mul_add]; linarith)), orbit_orbit,
          show r - Real.pi * d - Real.pi * ds.sum = r - Real.pi * (d + ds.sum) from by
            ring,
          show Real.pi * ds.sum + Real.pi * d = Real.pi * (d + ds.sum) from by ring]

/-- CLAIM C3: from the Idle state a rotate request sets the remaining angle
to 90° (`π/2`) and captures the pivot once from the camera's position and
forward direction; each tick advances by `min(remaining, 180°/s · dt)`,
orbiting the camera (position and orientation together) around the cached
pivot; the pivot survives every tick unchanged, and any tick sequence with
nonnegative durations accumulating at least 90° worth of rotation applies a
total rotation of exactly 90° about the pivot captured at request time. -/
theorem rotation_request_ticks_and_total :
    (∀ (clockwise : Bool) (level : Level) (t : Transform) (fp : Vec3),
      camera_rotation_input_system clockwise level t ⟨RotationMode.Stable, fp⟩ =
        ⟨if clockwise then RotationMode.Clockwise (Real.pi / 2)
            else RotationMode.CounterClockwise (Real.pi / 2),
          calculate_camera_focus_point t.translation t.forward level⟩) ∧
      (∀ (dt : ℝ) (st : CameraRotationState) (lim : CameraLimits) (t : Transform),
        (camera_rotation_animation_system dt st lim t).1.focus_point =
          st.focus_point) ∧
      (∀ (dt r : ℝ) (fp : Vec3) (lim : CameraLimits) (t : Transform),
        (camera_rotation_animation_system dt ⟨RotationMode.Clockwise r, fp⟩
            lim t).2.2 =
          orbit_camera_around_point t fp (-min (Real.pi * dt) r) ∧
        (camera_rotation_animation_system dt ⟨RotationMode.CounterClockwise r, fp⟩
            lim t).2.2 =
          orbit_camera_around_point t fp (min (Real.pi * dt) r)) ∧
      (∀ (dts : List ℝ) (fp : Vec3) (lim : CameraLimits) (t : Transform),
        (∀ d ∈ dts, 0 ≤ d) → Real.pi / 2 ≤ Real.pi * dts.sum →
        run_rotation_ticks dts ⟨RotationMode.Clockwise (Real.pi / 2), fp⟩ lim t =
            (⟨RotationMode.Stable, fp⟩, { lim with rotation_processed := false },
              orbit_camera_around_point t fp (-(Real.pi / 2))) ∧
          run_rotation_ticks dts ⟨RotationMode.CounterClockwise (Real.pi / 2), fp⟩
              lim t =
            (⟨RotationMode.Stable, fp⟩, { lim with rotation_processed := false },
              orbit_camera_around_point t fp (Real.pi / 2))) := by
  refine ⟨fun clockwise level t fp => rfl, ?_, ?_, ?_⟩
  · intro dt st lim t
    unfold camera_rotation_animation_system
    rcases st with ⟨mode, fp⟩
    cases mode with
    | Stable => rfl
    | Clockwise r =>
      dsimp only
      split <;> rfl
    | CounterClockwise r =>
      dsimp only
      split <;> rfl
  · intro dt r fp lim t
    constructor
    · unfold camera_rotation_animation_system
      dsimp only
      split <;> rfl
    · unfold camera_rotation_animation_system
      dsimp only
      split <;> rfl
  · intro dts fp lim t hd hsum
    have hpos : 0 < Real.pi / 2 := by positivity
    constructor
    · rw [run_rotation_ticks_clockwise dts hd (Real.pi / 2) hpos fp lim t,
        if_pos hsum]
    · rw [run_rotation_ticks_counterclockwise dts hd (Real.pi / 2) hpos fp lim t,
        if_pos hsum]

/-- A flat 1×1 level has diagonal extent zero: its single cell sits at the
world origin with height zero. -/
lemma diagonal_extent_flat_one_by_one :
    Level.get_level_diagonal_extent ⟨"flat", 1, 1, fun _ _ => 0⟩ = 0 := by
  have hgrid : (⟨"flat", 1, 1, fun _ _ => 0⟩ : Level).get_hex_grid = [⟨0, 0⟩] := rfl
  have hx : hex_to_world_pos ⟨0, 0⟩ = ⟨0, 0⟩ := by
    unfold hex_to_world_pos
    norm_num
  have hh : (⟨"flat", 1, 1, fun _ _ => 0⟩ : Level).get_height ⟨0, 0⟩ = 0 := by
    unfold Level.get_height
    split <;> rfl
  unfold Level.get_level_diagonal_extent
  rw [get_world_bounds_spec, hgrid]
  simp only [List.map_cons, List.map_nil, List.foldl_cons, List.foldl_nil, hx, hh]
  have hM : (0 : ℝ) ≤ f32MAX := by norm_num [f32MAX]
  rw [min_eq_right hM, max_eq_right (by linarith : -f32MAX ≤ (0 : ℝ))]
  norm_num [Real.sqrt_zero]

/-- CLAIM C1, counterexample: after a level change to a flat 1×1 level on a
1000×800 window at yaw 0°, the recomputed limits have
`max_zoom_scale = 3/1000 = 0.003 < 0.005 = min_zoom_scale` — the invariant
`min_scale < max_scale` is violated, and the scale written by the change
(`0.003`) lies outside `[min_scale, max_scale]`. -/
theorem zoom_limits_invariant_counterexample :
    (on_level_change_system ⟨"flat", 1, 1, fun _ _ => 0⟩ ⟨1000, 800⟩ 0 ⟨0, -1, 0⟩
          CameraLimits.default).1.max_zoom_scale <
      (on_level_change_system ⟨"flat", 1, 1, fun _ _ => 0⟩ ⟨1000, 800⟩ 0 ⟨0, -1, 0⟩
          CameraLimits.default).1.min_zoom_scale := by
  unfold on_level_change_system
  dsimp only
  rw [diagonal_extent_flat_one_by_one]
  unfold get_viewport_size_for_orientation calculate_optimal_scale CameraLimits.default
  norm_num

/-- CLAIM C1 (amended): every scale written by a mouse-wheel zoom event is
clamped into the fixed interval `[0.005, 0.05]` (not into the dynamic
`CameraLimits`); the level-change recomputation writes
`max_zoom_scale = (diagonal + 3) / viewport` and the same value as the new
camera scale while keeping `min_zoom_scale` unchanged, so the written scale
lies inside `[min_scale, max_scale]` — and `min_scale < max_scale` holds —
exactly when the recomputed optimal scale exceeds the fixed minimum. -/
theorem zoom_limits_amended :
    (∀ scale event_y : ℝ,
      0.005 ≤ camera_zoom_step scale event_y ∧ camera_zoom_step scale event_y ≤ 0.05) ∧
      (∀ (level : Level) (window : Window) (yaw_degrees : ℝ) (fwd : Vec3)
          (lim : CameraLimits),
        (on_level_change_system level window yaw_degrees fwd lim).2.2 =
            (on_level_change_system level window yaw_degrees fwd lim).1.max_zoom_scale ∧
          (on_level_change_system level window yaw_degrees fwd lim).1.max_zoom_scale =
            calculate_optimal_scale level.get_level_diagonal_extent
              (get_viewport_size_for_orientation yaw_degrees window) ∧
          (on_level_change_system level window yaw_degrees fwd lim).1.min_zoom_scale =
            lim.min_zoom_scale ∧
          (lim.min_zoom_scale <
              (on_level_change_system level window yaw_degrees fwd lim).1.max_zoom_scale →
            lim.min_zoom_scale ≤
                (on_level_change_system level window yaw_degrees fwd lim).2.2 ∧
              (on_level_change_system level window yaw_degrees fwd lim).2.2 ≤
                (on_level_change_system level window yaw_degrees fwd lim).1.max_zoom_scale)) := by
  constructor
  · intro scale event_y
    unfold camera_zoom_step fclamp
    by_cases h1 : scale - event_y * 0.0001 < 0.005
    · rw [if_pos h1]
      norm_num
    · rw [if_neg h1]
      by_cases h2 : scale - event_y * 0.0001 > 0.05
      · rw [if_pos h2]
        norm_num
      · rw [if_neg h2]
        constructor <;> linarith [not_lt.mp h1, not_lt.mp h2]
  · intro level window yaw_degrees fwd lim
    refine ⟨rfl, rfl, rfl, fun h => ⟨le_of_lt h, le_refl _⟩⟩

end SystemTactics
